import Mathlib

/-!
Verification of the NFS neuro-fuzzy classifier (neurofis/nfs.py).

The embedding models the mutable objects of the Python implementation as
explicit state: membership functions live in an arena (a list indexed by
membership-function id), and each rule stores the ids of its per-feature
membership functions together with its class label.  The `MF.fuzzyfy` and
`MF.move` methods live in neurofis/mf.py, which is not part of the sources
here; they are modelled from the spec and marked as such.  All numeric
values are rationals.
-/

namespace NFS

structure MF where
  low : ℚ
  mid : ℚ
  high : ℚ
deriving DecidableEq

/-- Default membership function used for out-of-range arena accesses. -/
def mfD : MF := ⟨0, 0, 0⟩

structure Rule where
  key : List ℕ
  cls : ℤ
deriving DecidableEq

abbrev Arena := List MF

def getMF (a : Arena) (i : ℕ) : MF := a.getD i mfD

/-- The membership-function id of rule `r` on feature `j` (`rule[feature]`). -/
def ruleMF (r : Rule) (j : ℕ) : ℕ := r.key.getD j 0

/-!
## Repair (nfs.py, `repair`)

The source scans, for `rule[feature]`, over all rules' functions on that
feature, keeping the one whose `mid` exceeds `rule[feature].high` at minimal
distance.  Line 130 of the source stores `neighbour = rule[feature]` (the
function itself); the subsequent merge then assigns that object's `low` and
`high`.  The fold below reproduces this literally: the first component of the
accumulator is the stored "neighbour" id, the second the current distance
(`none` standing for the initial `float('+infinity')`).
-/

/-- One iteration of the neighbour search: the `and`-condition of the source,
with `better` standing for `other.mid.x - rule[feature].high.x < dist`
(`true` against the initial infinite `dist`), and — exactly as in line 130 of
the source — `neighbour` set to `fid`, the scanned function itself. -/
def fnStep (j : ℕ) (a : Arena) (fid : ℕ) (acc : Option (ℕ × ℚ)) (r : Rule) :
    Option (ℕ × ℚ) :=
  let gm := (getMF a (ruleMF r j)).mid
  let h := (getMF a fid).high
  let better : Bool :=
    match acc with
    | none => true
    | some p => decide (gm - h < p.2)
  if h < gm ∧ better = true then some (fid, gm - h) else acc

def findNeighbour (rules : List Rule) (j : ℕ) (a : Arena) (fid : ℕ) :
    Option (ℕ × ℚ) :=
  rules.foldl (fnStep j a fid) none

/-- One body of the inner `for rule in self._rules.keys()` loop of `repair`:
find the "neighbour", and when one exists at nonzero distance perform the two
assignments `neighbour.low = rule[feature].mid` and then
`rule[feature].high = neighbour.mid` on the arena. -/
def repairStep (rules : List Rule) (j : ℕ) (a : Arena) (fid : ℕ) : Arena :=
  match findNeighbour rules j a fid with
  | none => a
  | some (nid, dist) =>
    if dist = 0 then a
    else
      let a1 := a.set nid (MF.mk (getMF a fid).mid (getMF a nid).mid (getMF a nid).high)
      a1.set fid (MF.mk (getMF a1 fid).low (getMF a1 fid).mid (getMF a1 nid).mid)

def passAux (rules : List Rule) (j : ℕ) (a : Arena) (todo : List Rule) : Arena :=
  todo.foldl (fun a r => repairStep rules j a (ruleMF r j)) a

/-- The inner rule loop of `repair` for one feature. -/
def repairPass (rules : List Rule) (j : ℕ) (a : Arena) : Arena :=
  passAux rules j a rules

def repairAux (rules : List Rule) (a : Arena) (feats : List ℕ) : Arena :=
  feats.foldl (fun a j => repairPass rules j a) a

/-- The method `repair(nb_of_features)`: the outer feature loop. -/
def repair (rules : List Rule) (nbF : ℕ) (a : Arena) : Arena :=
  repairAux rules a (List.range nbF)

/-- The net effect of the source's "merge" on the function it hits: both
`low` and `high` become the `mid` vertex. -/
def collapseMF (f : MF) : MF := ⟨f.mid, f.mid, f.mid⟩

def collapseA (a : Arena) (fid : ℕ) : Arena :=
  a.set fid (collapseMF (getMF a fid))

/-- The guard under which `repair` touches `rule[feature]`: some rule's
function on feature `j` has its `mid` strictly above this function's `high`. -/
def hasNbP (rules : List Rule) (j : ℕ) (a : Arena) (fid : ℕ) : Prop :=
  ∃ r ∈ rules, (getMF a fid).high < (getMF a (ruleMF r j)).mid

instance (rules : List Rule) (j : ℕ) (a : Arena) (fid : ℕ) :
    Decidable (hasNbP rules j a fid) := by
  unfold hasNbP
  infer_instance

def collapsed (f : MF) : Prop := f.low = f.mid ∧ f.high = f.mid

/-- A visit of `repair` at `(j, fid)` is a no-op when the function is already
collapsed whenever the guard fires. -/
def visitOK (rules : List Rule) (j : ℕ) (a : Arena) (fid : ℕ) : Prop :=
  hasNbP rules j a fid → collapsed (getMF a fid)

/-!
## Membership degree and vertex motion (neurofis/mf.py, absent from the sources)
-/

/-- Modelled from the spec: `MF.fuzzyfy` is defined in neurofis/mf.py, which
is missing from the sources.  Per the spec (overview and glossary) a
membership function is triangular over the vertices `low ≤ mid ≤ high`,
mapping a value to a degree in `[0, 1]`: zero outside `[low, high]`, rising
linearly on `[low, mid]`, falling linearly on `[mid, high]`, and a degenerate
zero-width segment is tolerated without division by zero. -/
def fuzzyfy (f : MF) (x : ℚ) : ℚ :=
  if x < f.low ∨ f.high < x then 0
  else if x ≤ f.mid then
    (if f.mid = f.low then 1 else (x - f.low) / (f.mid - f.low))
  else
    (if f.high = f.mid then 1 else (f.high - x) / (f.high - f.mid))

/-- Modelled from the spec: `MF.move` is defined in neurofis/mf.py, which is
missing from the sources.  Per the spec (section 4.4) the function's vertices
are shifted toward the observed value when the winning rule's class matches
the observation's label, and away from it otherwise, scaled by the learning
rate. -/
def moveMF (lr : ℚ) (f : MF) (x : ℚ) (same : Bool) : MF :=
  if same then
    ⟨f.low + lr * (x - f.low), f.mid + lr * (x - f.mid), f.high + lr * (x - f.high)⟩
  else
    ⟨f.low - lr * (x - f.low), f.mid - lr * (x - f.mid), f.high - lr * (x - f.high)⟩

/-!
## Activation, evaluation, competitive training (nfs.py, `train` and `test`)
-/

/-- The per-rule activation of `train`/`test`:
`act += mfs[feat].fuzzyfy(data[obs, feat]) / len(mfs)` over
`feat in range(0, len(mfs))`. -/
def activation (a : Arena) (key : List ℕ) (row : List ℚ) : ℚ :=
  (List.range key.length).foldl
    (fun s feat => s + fuzzyfy (getMF a (key.getD feat 0)) (row.getD feat 0) / (key.length : ℚ))
    0

/-- One comparison of the evaluation scan of `test`:
`if act >= max_act: max_class = target_class; max_act = act`. -/
def evalStep (a : Arena) (row : List ℚ) (acc : ℚ × ℤ) (r : Rule) : ℚ × ℤ :=
  if acc.1 ≤ activation a r.key row then (activation a r.key row, r.cls) else acc

/-- The per-observation body of `test`: scan all rules with `>=` against
`max_act = 0`, starting from `max_class = -1`, and return the final class. -/
def predict (a : Arena) (rules : List Rule) (row : List ℚ) : ℤ :=
  (rules.foldl (evalStep a row) (0, -1)).2

/-- One comparison of the training scan of `train`:
`if act > max_act: max_rule = (mfs, target_class); max_act = act`. -/
def winStep (a : Arena) (row : List ℚ) (acc : Option Rule × ℚ) (r : Rule) :
    Option Rule × ℚ :=
  if acc.2 < activation a r.key row then (some r, activation a r.key row) else acc

/-- The winner search of the training loop: `max_rule = None`, `max_act = 0`,
strict `>` comparison. -/
def findWinner (a : Arena) (rules : List Rule) (row : List ℚ) : Option Rule × ℚ :=
  rules.foldl (winStep a row) (none, 0)

/-- The update `max_rule[0][feat].move(data[obs, feat], learning_rate, max_rule[1] == target[obs])`
for every feature of the winning rule. -/
def applyMove (lr : ℚ) (a : Arena) (r : Rule) (row : List ℚ) (same : Bool) : Arena :=
  (List.range r.key.length).foldl
    (fun a feat =>
      a.set (r.key.getD feat 0)
        (moveMF lr (getMF a (r.key.getD feat 0)) (row.getD feat 0) same))
    a

/-- One observation of the training loop: find the most activated rule, skip
when there is none, otherwise move the winner's membership functions. -/
def trainStep (lr : ℚ) (rules : List Rule) (a : Arena) (row : List ℚ) (tgt : ℤ) :
    Arena :=
  match (findWinner a rules row).1 with
  | none => a
  | some w => applyMove lr a w row (decide (w.cls = tgt))

/-- One full pass of the training loop over the observations. -/
def trainEpoch (lr : ℚ) (rules : List Rule) (data : List (List ℚ)) (tgts : List ℤ)
    (a : Arena) : Arena :=
  (data.zip tgts).foldl (fun a p => trainStep lr rules a p.1 p.2) a

/-- The loop `for i in range(0, nb_iter)`: iterate the epoch. -/
def trainLoop (lr : ℚ) (rules : List Rule) (data : List (List ℚ)) (tgts : List ℤ)
    (nbIter : ℕ) (a : Arena) : Arena :=
  (List.range nbIter).foldl (fun a _ => trainEpoch lr rules data tgts a) a

/-!
## Partition construction and rule induction (nfs.py, `train`, lines 40-87)
-/

/-- The value `min_obs + n * (max_obs - min_obs) / 7`, the position of break point `n`. -/
def pts (mn mx : ℚ) (n : ℕ) : ℚ := mn + n * (mx - mn) / 7

/-- The 7 break points of a feature's partition. -/
def points7 (mn mx : ℚ) : List ℚ := (List.range 7).map (pts mn mx)

/-- The 5 triangular membership functions
`MF(points[n], points[n + 1], points[n + 2])` of a feature's partition. -/
def splits5 (mn mx : ℚ) : List MF :=
  (List.range 5).map (fun n => ⟨pts mn mx n, pts mn mx (n + 1), pts mn mx (n + 2)⟩)

def colMin (data : List (List ℚ)) (j : ℕ) : ℚ :=
  match data.map (fun row => row.getD j 0) with
  | [] => 0
  | x :: xs => xs.foldl min x

def colMax (data : List (List ℚ)) (j : ℕ) : ℚ :=
  match data.map (fun row => row.getD j 0) with
  | [] => 0
  | x :: xs => xs.foldl max x

/-- Cartesian product in the order of `itertools.product`: the first factor varies slowest. -/
def cartProd : List (List ℕ) → List (List ℕ)
  | [] => [[]]
  | l :: ls => l.flatMap (fun x => (cartProd ls).map (fun t => x :: t))

/-- Whether an observation falls inside a grid cell: for every feature of the
row, `intersection[feature].low.x <= value <= intersection[feature].high.x`. -/
def matchesCell (a : Arena) (key : List ℕ) (row : List ℚ) : Bool :=
  (List.range row.length).all
    (fun j =>
      decide ((getMF a (key.getD j 0)).low ≤ row.getD j 0 ∧
        row.getD j 0 ≤ (getMF a (key.getD j 0)).high))

/-- The increment `classes[target[observ]] += 1`, creating the entry on first occurrence:
an insertion-ordered association list from class label to count. -/
def bump : List (ℤ × ℕ) → ℤ → List (ℤ × ℕ)
  | [], c => [(c, 1)]
  | (k, n) :: rest, c =>
    if k = c then (k, n + 1) :: rest else (k, n) :: bump rest c

/-- The per-cell class tally of the induction loop, in insertion order. -/
def tallyCell (a : Arena) (key : List ℕ) (data : List (List ℚ)) (tgts : List ℤ) :
    List (ℤ × ℕ) :=
  (data.zip tgts).foldl
    (fun acc p => if matchesCell a key p.1 then bump acc p.2 else acc) []

/-- One comparison of Python's `max`: lexicographic on `(count, class)`
pairs, keeping the earlier element unless a strictly greater one appears. -/
def pyStep (acc : Option (ℕ × ℤ)) (p : ℕ × ℤ) : Option (ℕ × ℤ) :=
  match acc with
  | none => some p
  | some q => if q.1 < p.1 ∨ (q.1 = p.1 ∧ q.2 < p.2) then some p else acc

/-- Python's `max` over `(count, class)` pairs. -/
def pyMax (l : List (ℕ × ℤ)) : Option (ℕ × ℤ) :=
  l.foldl pyStep none

/-- The greatest per-class count of a cell tally. -/
def maxCount (t : List (ℤ × ℕ)) : ℕ :=
  t.foldl (fun m p => max m p.2) 0

/-- The selection `max(zip(classes.values(), classes.keys()))` followed by the
`nb_of_observations >= self._min_observations_per_rule` test: the class
assigned to a grid cell, or `none` when the cell is discarded. -/
def pickRule (a : Arena) (key : List ℕ) (data : List (List ℚ)) (tgts : List ℤ)
    (minObs : ℕ) : Option ℤ :=
  match pyMax ((tallyCell a key data tgts).map (fun p => (p.2, p.1))) with
  | none => none
  | some p => if minObs ≤ p.1 then some p.2 else none

/-- Handling of one grid cell by the induction loop: append a rule when the
cell is kept, leave the rule list unchanged otherwise. -/
def indStep (a : Arena) (data : List (List ℚ)) (tgts : List ℤ) (minObs : ℕ)
    (rs : List Rule) (key : List ℕ) : List Rule :=
  match pickRule a key data tgts minObs with
  | none => rs
  | some c => rs ++ [Rule.mk key c]

/-- The induction loop over all grid cells, in grid order (dict insertion
order of `self._rules`). -/
def induceRules (a : Arena) (grid : List (List ℕ)) (data : List (List ℚ))
    (tgts : List ℤ) (minObs : ℕ) : List Rule :=
  grid.foldl (indStep a data tgts minObs) []

/-- Partition construction plus rule induction: the part of `train` before
`repair` is called.  Membership-function ids are `5 * feature + n`. -/
def induce (data : List (List ℚ)) (tgts : List ℤ) (minObs : ℕ) :
    List Rule × Arena :=
  let nbF := (data.headD []).length
  let arena := (List.range nbF).foldl (fun a j => a ++ splits5 (colMin data j) (colMax data j)) []
  let grid := cartProd ((List.range nbF).map (fun j => (List.range 5).map (fun n => 5 * j + n)))
  (induceRules arena grid data tgts minObs, arena)

/-- The whole of `train` on already-shuffled data (the shuffle itself is the
external data-ingestion collaborator): induce, repair, then `nb_iter`
competitive epochs. -/
def train (data : List (List ℚ)) (tgts : List ℤ) (minObs nbIter : ℕ) (lr : ℚ) :
    List Rule × Arena :=
  let p := induce data tgts minObs
  let a2 := repair p.1 (data.headD []).length p.2
  (p.1, trainLoop lr p.1 data tgts nbIter a2)

/-- The model state right after induction and repair, before any epoch. -/
def postRepairState (data : List (List ℚ)) (tgts : List ℤ) (minObs : ℕ) :
    List Rule × Arena :=
  let p := induce data tgts minObs
  (p.1, repair p.1 (data.headD []).length p.2)

/-- Modelled from the spec: `train` first hands data and labels to the
external shuffle collaborator (sklearn.utils.shuffle); per the spec
(section 6) that collaborator requires the row counts of the matrix and the
label vector to match, and it raises a descriptive error otherwise, before
any induction work happens. -/
def shuffleCheck (data : List (List ℚ)) (tgts : List ℤ) : Except String Unit :=
  if data.length = tgts.length then Except.ok ()
  else Except.error "inconsistent numbers of samples"

/-- The method `train` including the collaborator's shape check. -/
def trainRun (data : List (List ℚ)) (tgts : List ℤ) (minObs nbIter : ℕ)
    (lr : ℚ) : Except String (List Rule × Arena) :=
  match shuffleCheck data tgts with
  | Except.error e => Except.error e
  | Except.ok _ => Except.ok (train data tgts minObs nbIter lr)

/-!
## Fold lemmas for the two winner scans
-/

theorem winFold_stay (a : Arena) (row : List ℚ) (l : List Rule) (o : Option Rule)
    (m : ℚ) (h : ∀ r ∈ l, activation a r.key row ≤ m) :
    l.foldl (winStep a row) (o, m) = (o, m) := by
  induction l with
  | nil => rfl
  | cons r rest ih =>
    have hr : ¬ (m < activation a r.key row) :=
      not_lt.mpr (h r (List.mem_cons_self r rest))
    rw [List.foldl_cons]
    have hstep : winStep a row (o, m) r = (o, m) := by
      simp [winStep, hr]
    rw [hstep]
    exact ih (fun r' hr' => h r' (List.mem_cons_of_mem r hr'))

theorem winFold_found (a : Arena) (row : List ℚ) :
    ∀ (l : List Rule) (o : Option Rule) (m : ℚ),
      (∃ r ∈ l, m < activation a r.key row) →
      ∃ l₁ w l₂, l = l₁ ++ w :: l₂ ∧ m < activation a w.key row ∧
        (∀ r ∈ l₁, activation a r.key row < activation a w.key row) ∧
        (∀ r ∈ l, activation a r.key row ≤ activation a w.key row) ∧
        l.foldl (winStep a row) (o, m) = (some w, activation a w.key row)
  | [], o, m, h => by simp at h
  | r₀ :: rest, o, m, h => by
    by_cases h₀ : m < activation a r₀.key row
    · have hstep : (r₀ :: rest).foldl (winStep a row) (o, m)
          = rest.foldl (winStep a row) (some r₀, activation a r₀.key row) := by
        rw [List.foldl_cons]
        congr 1
        simp [winStep, h₀]
      by_cases h₁ : ∃ r ∈ rest, activation a r₀.key row < activation a r.key row
      · obtain ⟨l₁, w, l₂, hdec, hgt, hbefore, hall, hfold⟩ :=
          winFold_found a row rest (some r₀) (activation a r₀.key row) h₁
        refine ⟨r₀ :: l₁, w, l₂, by simp [hdec], lt_trans h₀ hgt, ?_, ?_, ?_⟩
        · intro r hr
          rcases List.mem_cons.mp hr with he | he
          · rw [he]; exact hgt
          · exact hbefore r he
        · intro r hr
          rcases List.mem_cons.mp hr with he | he
          · rw [he]; exact le_of_lt hgt
          · exact hall r he
        · rw [hstep, hfold]
      · push_neg at h₁
        refine ⟨[], r₀, rest, rfl, h₀, by simp, ?_, ?_⟩
        · intro r hr
          rcases List.mem_cons.mp hr with he | he
          · rw [he]
          · exact h₁ r he
        · rw [hstep, winFold_stay a row rest _ _ h₁]
    · have hstep : (r₀ :: rest).foldl (winStep a row) (o, m)
          = rest.foldl (winStep a row) (o, m) := by
        rw [List.foldl_cons]
        congr 1
        simp [winStep, h₀]
      have h' : ∃ r ∈ rest, m < activation a r.key row := by
        rcases h with ⟨r, hr, hlt⟩
        rcases List.mem_cons.mp hr with he | he
        · rw [he] at hlt; exact absurd hlt h₀
        · exact ⟨r, he, hlt⟩
      obtain ⟨l₁, w, l₂, hdec, hgt, hbefore, hall, hfold⟩ :=
        winFold_found a row rest o m h'
      refine ⟨r₀ :: l₁, w, l₂, by simp [hdec], hgt, ?_, ?_, by rw [hstep, hfold]⟩
      · intro r hr
        rcases List.mem_cons.mp hr with he | he
        · rw [he]; exact lt_of_le_of_lt (not_lt.mp h₀) hgt
        · exact hbefore r he
      · intro r hr
        rcases List.mem_cons.mp hr with he | he
        · rw [he]; exact le_of_lt (lt_of_le_of_lt (not_lt.mp h₀) hgt)
        · exact hall r he

theorem evalFold_stay (a : Arena) (row : List ℚ) (l : List Rule) (m : ℚ) (c : ℤ)
    (h : ∀ r ∈ l, activation a r.key row < m) :
    l.foldl (evalStep a row) (m, c) = (m, c) := by
  induction l with
  | nil => rfl
  | cons r rest ih =>
    have hr : ¬ (m ≤ activation a r.key row) :=
      not_le.mpr (h r (List.mem_cons_self r rest))
    rw [List.foldl_cons]
    have hstep : evalStep a row (m, c) r = (m, c) := by
      simp [evalStep, hr]
    rw [hstep]
    exact ih (fun r' hr' => h r' (List.mem_cons_of_mem r hr'))

theorem evalFold_found (a : Arena) (row : List ℚ) :
    ∀ (l : List Rule) (m : ℚ) (c : ℤ),
      (∃ r ∈ l, m ≤ activation a r.key row) →
      ∃ l₁ w l₂, l = l₁ ++ w :: l₂ ∧ m ≤ activation a w.key row ∧
        (∀ r ∈ l, activation a r.key row ≤ activation a w.key row) ∧
        (∀ r ∈ l₂, activation a r.key row < activation a w.key row) ∧
        l.foldl (evalStep a row) (m, c) = (activation a w.key row, w.cls)
  | [], m, c, h => by simp at h
  | r₀ :: rest, m, c, h => by
    by_cases h₀ : m ≤ activation a r₀.key row
    · have hstep : (r₀ :: rest).foldl (evalStep a row) (m, c)
          = rest.foldl (evalStep a row) (activation a r₀.key row, r₀.cls) := by
        rw [List.foldl_cons]
        congr 1
        simp [evalStep, h₀]
      by_cases h₁ : ∃ r ∈ rest, activation a r₀.key row ≤ activation a r.key row
      · obtain ⟨l₁, w, l₂, hdec, hge, hall, hafter, hfold⟩ :=
          evalFold_found a row rest (activation a r₀.key row) r₀.cls h₁
        refine ⟨r₀ :: l₁, w, l₂, by simp [hdec], le_trans h₀ hge, ?_, hafter, ?_⟩
        · intro r hr
          rcases List.mem_cons.mp hr with he | he
          · rw [he]; exact hge
          · exact hall r he
        · rw [hstep, hfold]
      · push_neg at h₁
        refine ⟨[], r₀, rest, rfl, h₀, ?_, h₁, ?_⟩
        · intro r hr
          rcases List.mem_cons.mp hr with he | he
          · rw [he]
          · exact le_of_lt (h₁ r he)
        · rw [hstep, evalFold_stay a row rest _ _ h₁]
    · have hstep : (r₀ :: rest).foldl (evalStep a row) (m, c)
          = rest.foldl (evalStep a row) (m, c) := by
        rw [List.foldl_cons]
        congr 1
        simp [evalStep, h₀]
      have h' : ∃ r ∈ rest, m ≤ activation a r.key row := by
        rcases h with ⟨r, hr, hle⟩
        rcases List.mem_cons.mp hr with he | he
        · rw [he] at hle; exact absurd hle h₀
        · exact ⟨r, he, hle⟩
      obtain ⟨l₁, w, l₂, hdec, hge, hall, hafter, hfold⟩ :=
        evalFold_found a row rest m c h'
      refine ⟨r₀ :: l₁, w, l₂, by simp [hdec], hge, ?_, hafter, by rw [hstep, hfold]⟩
      · intro r hr
        rcases List.mem_cons.mp hr with he | he
        · rw [he]; exact le_of_lt (lt_of_lt_of_le (not_le.mp h₀) hge)
        · exact hall r he

/-!
## Arithmetic facts about the activation score
-/

theorem foldl_add_div (g : ℕ → ℚ) (c : ℚ) :
    ∀ (l : List ℕ) (s : ℚ), l.foldl (fun s x => s + g x / c) s = s + (l.map g).sum / c
  | [], s => by simp
  | x :: l, s => by
    rw [List.foldl_cons, foldl_add_div g c l (s + g x / c), List.map_cons,
      List.sum_cons, add_div, add_assoc]

/-- The activation score is the sum of the per-feature degrees divided by the
feature count: an unweighted mean. -/
theorem activation_mean (a : Arena) (key : List ℕ) (row : List ℚ) :
    activation a key row =
      ((List.range key.length).map
        (fun i => fuzzyfy (getMF a (key.getD i 0)) (row.getD i 0))).sum
        / (key.length : ℚ) := by
  have h := foldl_add_div
    (fun i => fuzzyfy (getMF a (key.getD i 0)) (row.getD i 0))
    ((key.length : ℚ)) (List.range key.length) 0
  rw [zero_add] at h
  exact h

/-- A triangular membership function with ordered vertices only returns
nonnegative degrees. -/
theorem fuzzyfy_nonneg (f : MF) (h1 : f.low ≤ f.mid) (h2 : f.mid ≤ f.high)
    (x : ℚ) : 0 ≤ fuzzyfy f x := by
  unfold fuzzyfy
  split_ifs with hout hx hml hhm
  · exact le_refl 0
  · exact zero_le_one
  · push_neg at hout
    have hlm : f.low < f.mid := lt_of_le_of_ne h1 (fun e => hml e.symm)
    exact div_nonneg (by linarith [hout.1]) (by linarith)
  · exact zero_le_one
  · push_neg at hout
    have hmh : f.mid < f.high := lt_of_le_of_ne h2 (fun e => hhm e.symm)
    exact div_nonneg (by linarith [hout.2]) (by linarith)

theorem activation_nonneg (a : Arena) (key : List ℕ) (row : List ℚ)
    (hdeg : ∀ i x, 0 ≤ fuzzyfy (getMF a i) x) : 0 ≤ activation a key row := by
  rw [activation_mean]
  apply div_nonneg
  · apply List.sum_nonneg
    intro q hq
    rcases List.mem_map.mp hq with ⟨i, _, rfl⟩
    exact hdeg _ _
  · exact Nat.cast_nonneg _

/-!
## Characterization of one repair visit, and idempotence machinery
-/

theorem getMF_set_self (a : Arena) (i : ℕ) (v : MF) (h : i < a.length) :
    getMF (a.set i v) i = v := by
  unfold getMF
  rw [List.getD_eq_getElem?_getD, List.getElem?_set_self h]
  rfl

theorem getMF_set_ne (a : Arena) (i x : ℕ) (v : MF) (h : i ≠ x) :
    getMF (a.set i v) x = getMF a x := by
  unfold getMF
  rw [List.getD_eq_getElem?_getD, List.getElem?_set_ne h, ← List.getD_eq_getElem?_getD]

theorem getMF_of_length_le (a : Arena) (i : ℕ) (h : a.length ≤ i) :
    getMF a i = mfD := by
  unfold getMF
  rw [List.getD_eq_getElem?_getD, List.getElem?_eq_none h]
  rfl

theorem set_getMF_self (a : Arena) : ∀ (i : ℕ), a.set i (getMF a i) = a := by
  induction a with
  | nil => intro i; rfl
  | cons f rest ih =>
    intro i
    cases i with
    | zero => rfl
    | succ n =>
      have hg : getMF (f :: rest) (n + 1) = getMF rest n := by
        unfold getMF
        exact List.getD_cons_succ
      show f :: rest.set n (getMF (f :: rest) (n + 1)) = f :: rest
      rw [hg, ih n]

theorem fnStep_some (j : ℕ) (a : Arena) (fid : ℕ) (p : ℕ × ℚ) (r : Rule) :
    ∃ q, fnStep j a fid (some p) r = some q := by
  dsimp only [fnStep]
  split_ifs with hc
  · exact ⟨_, rfl⟩
  · exact ⟨p, rfl⟩

theorem fnFold_isSome (j : ℕ) (a : Arena) (fid : ℕ) :
    ∀ (l : List Rule) (p : ℕ × ℚ), (l.foldl (fnStep j a fid) (some p)).isSome = true
  | [], p => rfl
  | r :: rest, p => by
    rw [List.foldl_cons]
    obtain ⟨q, hq⟩ := fnStep_some j a fid p r
    rw [hq]
    exact fnFold_isSome j a fid rest q

theorem fnFold_none_iff (j : ℕ) (a : Arena) (fid : ℕ) :
    ∀ (l : List Rule), l.foldl (fnStep j a fid) none = none ↔
      ∀ r ∈ l, ¬ ((getMF a fid).high < (getMF a (ruleMF r j)).mid)
  | [] => by simp
  | r₀ :: rest => by
    rw [List.foldl_cons]
    by_cases hc : (getMF a fid).high < (getMF a (ruleMF r₀ j)).mid
    · have hstep : fnStep j a fid none r₀
          = some (fid, (getMF a (ruleMF r₀ j)).mid - (getMF a fid).high) := by
        simp [fnStep, hc]
      rw [hstep]
      constructor
      · intro hfold
        have hs := fnFold_isSome j a fid rest
          (fid, (getMF a (ruleMF r₀ j)).mid - (getMF a fid).high)
        rw [hfold] at hs
        exact Bool.noConfusion hs
      · intro hall
        exact absurd hc (hall r₀ (List.mem_cons_self r₀ rest))
    · have hstep : fnStep j a fid none r₀ = none := by
        simp [fnStep, hc]
      rw [hstep, fnFold_none_iff j a fid rest]
      constructor
      · intro hall r hr
        rcases List.mem_cons.mp hr with he | he
        · rw [he]; exact hc
        · exact hall r he
      · intro hall r hr
        exact hall r (List.mem_cons_of_mem r₀ hr)

theorem fnFold_some_shape (j : ℕ) (a : Arena) (fid : ℕ) :
    ∀ (l : List Rule) (acc : Option (ℕ × ℚ)),
      (∀ q, acc = some q → q.1 = fid ∧ 0 < q.2) →
      ∀ p, l.foldl (fnStep j a fid) acc = some p → p.1 = fid ∧ 0 < p.2
  | [], acc, hacc, p, hp => hacc p hp
  | r :: rest, acc, hacc, p, hp => by
    rw [List.foldl_cons] at hp
    refine fnFold_some_shape j a fid rest (fnStep j a fid acc r) ?_ p hp
    intro q hq
    dsimp only [fnStep] at hq
    split_ifs at hq with hc
    · obtain rfl := Option.some.inj hq
      exact ⟨rfl, sub_pos.mpr hc.1⟩
    · exact hacc q hq

theorem repairStep_char (rules : List Rule) (j : ℕ) (a : Arena) (fid : ℕ) :
    repairStep rules j a fid = if hasNbP rules j a fid then collapseA a fid else a := by
  rcases hfn : findNeighbour rules j a fid with _ | ⟨nid, d⟩
  · have hall := (fnFold_none_iff j a fid rules).mp hfn
    have hnot : ¬ hasNbP rules j a fid := by
      rintro ⟨r, hr, hcc⟩
      exact hall r hr hcc
    unfold repairStep
    rw [hfn, if_neg hnot]
  · obtain ⟨h1, h2⟩ := fnFold_some_shape j a fid rules none
      (fun q hq => Option.noConfusion hq) (nid, d) hfn
    have hnb : hasNbP rules j a fid := by
      by_contra hnc
      have hnone : findNeighbour rules j a fid = none :=
        (fnFold_none_iff j a fid rules).mpr (fun r hr hcc => hnc ⟨r, hr, hcc⟩)
      rw [hfn] at hnone
      exact Option.noConfusion hnone
    simp only at h1
    subst nid
    have hd : ¬ (d = 0) := ne_of_gt h2
    simp only [repairStep, hfn, if_pos hnb]
    rw [if_neg hd]
    by_cases hl : fid < a.length
    · rw [getMF_set_self a fid _ hl, List.set_set]
      rfl
    · have hle := not_lt.mp hl
      simp only [List.set_eq_of_length_le hle]
      unfold collapseA
      rw [List.set_eq_of_length_le hle]

theorem collapsed_mfD : collapsed mfD := ⟨rfl, rfl⟩

theorem collapsed_collapseMF (f : MF) : collapsed (collapseMF f) := ⟨rfl, rfl⟩

theorem collapseMF_eq_self (f : MF) (h : collapsed f) : collapseMF f = f := by
  obtain ⟨h1, h2⟩ := h
  cases f with
  | mk lo mi hi =>
    simp only at h1 h2
    unfold collapseMF
    rw [h1, h2]

theorem collapseA_mid (a : Arena) (fid x : ℕ) :
    (getMF (collapseA a fid) x).mid = (getMF a x).mid := by
  unfold collapseA
  by_cases he : fid = x
  · subst he
    by_cases hl : fid < a.length
    · rw [getMF_set_self a fid _ hl]
      rfl
    · rw [List.set_eq_of_length_le (not_lt.mp hl)]
  · rw [getMF_set_ne a fid x _ he]

theorem collapseA_getMF_ne (a : Arena) (fid x : ℕ) (h : fid ≠ x) :
    getMF (collapseA a fid) x = getMF a x :=
  getMF_set_ne a fid x _ h

theorem hasNbP_congr (rules : List Rule) (j : ℕ) (a b : Arena) (fid : ℕ)
    (hh : (getMF a fid).high = (getMF b fid).high)
    (hm : ∀ x, (getMF a x).mid = (getMF b x).mid) :
    hasNbP rules j a fid ↔ hasNbP rules j b fid := by
  unfold hasNbP
  constructor
  · rintro ⟨r, hr, hc⟩
    refine ⟨r, hr, ?_⟩
    rw [← hh, ← hm (ruleMF r j)]
    exact hc
  · rintro ⟨r, hr, hc⟩
    refine ⟨r, hr, ?_⟩
    rw [hh, hm (ruleMF r j)]
    exact hc

theorem visitOK_mono (rules : List Rule) (j j' : ℕ) (a : Arena) (fid fid' : ℕ)
    (h : visitOK rules j a fid) :
    visitOK rules j (repairStep rules j' a fid') fid := by
  rw [repairStep_char]
  by_cases hnb : hasNbP rules j' a fid'
  · rw [if_pos hnb]
    by_cases he : fid' = fid
    · subst he
      intro _
      by_cases hl : fid' < a.length
      · unfold collapseA
        rw [getMF_set_self a fid' _ hl]
        exact collapsed_collapseMF _
      · unfold collapseA
        rw [List.set_eq_of_length_le (not_lt.mp hl),
          getMF_of_length_le a fid' (not_lt.mp hl)]
        exact collapsed_mfD
    · intro hb
      have hget := collapseA_getMF_ne a fid' fid he
      rw [hget]
      apply h
      exact (hasNbP_congr rules j (collapseA a fid') a fid
        (by rw [hget]) (fun x => collapseA_mid a fid' x)).mp hb
  · rw [if_neg hnb]
    exact h

theorem visitOK_est (rules : List Rule) (j : ℕ) (a : Arena) (fid : ℕ) :
    visitOK rules j (repairStep rules j a fid) fid := by
  rw [repairStep_char]
  by_cases hnb : hasNbP rules j a fid
  · rw [if_pos hnb]
    intro _
    by_cases hl : fid < a.length
    · unfold collapseA
      rw [getMF_set_self a fid _ hl]
      exact collapsed_collapseMF _
    · unfold collapseA
      rw [List.set_eq_of_length_le (not_lt.mp hl),
        getMF_of_length_le a fid (not_lt.mp hl)]
      exact collapsed_mfD
  · rw [if_neg hnb]
    intro hb
    exact absurd hb hnb

theorem visitOK_noop (rules : List Rule) (j : ℕ) (a : Arena) (fid : ℕ)
    (h : visitOK rules j a fid) : repairStep rules j a fid = a := by
  rw [repairStep_char]
  by_cases hnb : hasNbP rules j a fid
  · rw [if_pos hnb]
    unfold collapseA
    rw [collapseMF_eq_self _ (h hnb), set_getMF_self]
  · rw [if_neg hnb]

theorem passAux_visitOK_mono (rules : List Rule) (j j₀ : ℕ) (fid : ℕ) :
    ∀ (todo : List Rule) (a : Arena), visitOK rules j₀ a fid →
      visitOK rules j₀ (passAux rules j a todo) fid
  | [], _, h => h
  | r :: rest, a, h => by
    show visitOK rules j₀ (passAux rules j (repairStep rules j a (ruleMF r j)) rest) fid
    exact passAux_visitOK_mono rules j j₀ fid rest _
      (visitOK_mono rules j₀ j a fid (ruleMF r j) h)

theorem passAux_visitOK_est (rules : List Rule) (j : ℕ) :
    ∀ (todo : List Rule) (a : Arena), ∀ r ∈ todo,
      visitOK rules j (passAux rules j a todo) (ruleMF r j)
  | [], _, r, hr => absurd hr (List.not_mem_nil r)
  | r₀ :: rest, a, r, hr => by
    show visitOK rules j (passAux rules j (repairStep rules j a (ruleMF r₀ j)) rest)
      (ruleMF r j)
    rcases List.mem_cons.mp hr with he | he
    · rw [he]
      exact passAux_visitOK_mono rules j j (ruleMF r₀ j) rest _
        (visitOK_est rules j a (ruleMF r₀ j))
    · exact passAux_visitOK_est rules j rest _ r he

theorem repairAux_visitOK_mono (rules : List Rule) (j₀ : ℕ) (fid : ℕ) :
    ∀ (feats : List ℕ) (a : Arena), visitOK rules j₀ a fid →
      visitOK rules j₀ (repairAux rules a feats) fid
  | [], _, h => h
  | j :: rest, a, h => by
    show visitOK rules j₀ (repairAux rules (repairPass rules j a) rest) fid
    refine repairAux_visitOK_mono rules j₀ fid rest _ ?_
    unfold repairPass
    exact passAux_visitOK_mono rules j j₀ fid rules a h

theorem repairAux_visitOK_all (rules : List Rule) :
    ∀ (feats : List ℕ) (a : Arena), ∀ j ∈ feats, ∀ r ∈ rules,
      visitOK rules j (repairAux rules a feats) (ruleMF r j)
  | [], _, j, hj, _, _ => absurd hj (List.not_mem_nil j)
  | j₀ :: rest, a, j, hj, r, hr => by
    show visitOK rules j (repairAux rules (repairPass rules j₀ a) rest) (ruleMF r j)
    rcases List.mem_cons.mp hj with he | he
    · rw [he]
      refine repairAux_visitOK_mono rules j₀ (ruleMF r j₀) rest _ ?_
      unfold repairPass
      exact passAux_visitOK_est rules j₀ rules a r hr
    · exact repairAux_visitOK_all rules rest _ j he r hr

theorem passAux_noop (rules : List Rule) (j : ℕ) :
    ∀ (todo : List Rule) (a : Arena),
      (∀ r ∈ todo, visitOK rules j a (ruleMF r j)) → passAux rules j a todo = a
  | [], _, _ => rfl
  | r₀ :: rest, a, h => by
    have hstep : repairStep rules j a (ruleMF r₀ j) = a :=
      visitOK_noop rules j a (ruleMF r₀ j) (h r₀ (List.mem_cons_self r₀ rest))
    show passAux rules j (repairStep rules j a (ruleMF r₀ j)) rest = a
    rw [hstep]
    exact passAux_noop rules j rest a (fun r hr => h r (List.mem_cons_of_mem r₀ hr))

theorem repairAux_noop (rules : List Rule) :
    ∀ (feats : List ℕ) (a : Arena),
      (∀ j ∈ feats, ∀ r ∈ rules, visitOK rules j a (ruleMF r j)) →
      repairAux rules a feats = a
  | [], _, _ => rfl
  | j₀ :: rest, a, h => by
    have hpass : repairPass rules j₀ a = a := by
      unfold repairPass
      exact passAux_noop rules j₀ rules a
        (fun r hr => h j₀ (List.mem_cons_self j₀ rest) r hr)
    show repairAux rules (repairPass rules j₀ a) rest = a
    rw [hpass]
    exact repairAux_noop rules rest a
      (fun j hj r hr => h j (List.mem_cons_of_mem j₀ hj) r hr)

/-!
## Python `max` over `(count, class)` pairs, tallies and rule induction
-/

theorem pyFold_spec :
    ∀ (l : List (ℕ × ℤ)) (q : ℕ × ℤ),
      ∃ m, l.foldl pyStep (some q) = some m ∧ (m = q ∨ m ∈ l) ∧
        (q.1 < m.1 ∨ (q.1 = m.1 ∧ q.2 ≤ m.2)) ∧
        ∀ p ∈ l, p.1 < m.1 ∨ (p.1 = m.1 ∧ p.2 ≤ m.2)
  | [], q => ⟨q, rfl, Or.inl rfl, Or.inr ⟨rfl, le_refl _⟩, by simp⟩
  | p₀ :: rest, q => by
    rw [List.foldl_cons]
    by_cases hc : q.1 < p₀.1 ∨ (q.1 = p₀.1 ∧ q.2 < p₀.2)
    · have hstep : pyStep (some q) p₀ = some p₀ := by
        dsimp only [pyStep]
        rw [if_pos hc]
      rw [hstep]
      obtain ⟨m, hfold, hmem, hqm, hall⟩ := pyFold_spec rest p₀
      refine ⟨m, hfold, ?_, ?_, ?_⟩
      · rcases hmem with he | he
        · exact Or.inr (by rw [he]; exact List.mem_cons_self p₀ rest)
        · exact Or.inr (List.mem_cons_of_mem p₀ he)
      · rcases hc with h | h <;> rcases hqm with h' | h' <;> omega
      · intro p hp
        rcases List.mem_cons.mp hp with he | he
        · rw [he]; exact hqm
        · exact hall p he
    · have hstep : pyStep (some q) p₀ = some q := by
        dsimp only [pyStep]
        rw [if_neg hc]
      rw [hstep]
      obtain ⟨m, hfold, hmem, hqm, hall⟩ := pyFold_spec rest q
      refine ⟨m, hfold, ?_, hqm, ?_⟩
      · rcases hmem with he | he
        · exact Or.inl he
        · exact Or.inr (List.mem_cons_of_mem p₀ he)
      · intro p hp
        rcases List.mem_cons.mp hp with he | he
        · rw [he]
          rcases hqm with h' | h' <;> omega
        · exact hall p he

theorem pyMax_spec (l : List (ℕ × ℤ)) (h : l ≠ []) :
    ∃ m, pyMax l = some m ∧ m ∈ l ∧
      ∀ p ∈ l, p.1 < m.1 ∨ (p.1 = m.1 ∧ p.2 ≤ m.2) := by
  obtain ⟨p₀, rest, rfl⟩ := List.exists_cons_of_ne_nil h
  unfold pyMax
  rw [List.foldl_cons]
  have hstep : pyStep none p₀ = some p₀ := rfl
  rw [hstep]
  obtain ⟨m, hfold, hmem, hqm, hall⟩ := pyFold_spec rest p₀
  refine ⟨m, hfold, ?_, ?_⟩
  · rcases hmem with he | he
    · rw [he]; exact List.mem_cons_self p₀ rest
    · exact List.mem_cons_of_mem p₀ he
  · intro p hp
    rcases List.mem_cons.mp hp with he | he
    · rw [he]; exact hqm
    · exact hall p he

theorem foldlMax_init : ∀ (t : List (ℤ × ℕ)) (i : ℕ),
    i ≤ t.foldl (fun m p => max m p.2) i
  | [], _ => le_refl _
  | p :: rest, i =>
    le_trans (le_max_left i p.2) (foldlMax_init rest (max i p.2))

theorem foldlMax_mem : ∀ (t : List (ℤ × ℕ)) (i : ℕ) (p : ℤ × ℕ), p ∈ t →
    p.2 ≤ t.foldl (fun m p => max m p.2) i
  | [], _, p, hp => absurd hp (List.not_mem_nil p)
  | q :: rest, i, p, hp => by
    rw [List.foldl_cons]
    rcases List.mem_cons.mp hp with he | he
    · rw [he]
      exact le_trans (le_max_right i q.2) (foldlMax_init rest (max i q.2))
    · exact foldlMax_mem rest (max i q.2) p he

theorem foldlMax_le : ∀ (t : List (ℤ × ℕ)) (i b : ℕ),
    (∀ p ∈ t, p.2 ≤ b) → i ≤ b → t.foldl (fun m p => max m p.2) i ≤ b
  | [], _, _, _, hi => hi
  | q :: rest, i, b, h, hi => by
    rw [List.foldl_cons]
    exact foldlMax_le rest (max i q.2) b
      (fun p hp => h p (List.mem_cons_of_mem q hp))
      (max_le hi (h q (List.mem_cons_self q rest)))

theorem pyMax_swap_fst (t : List (ℤ × ℕ)) (m : ℕ × ℤ)
    (hm : m ∈ t.map (fun p => (p.2, p.1)))
    (hall : ∀ p ∈ t.map (fun p => (p.2, p.1)), p.1 < m.1 ∨ (p.1 = m.1 ∧ p.2 ≤ m.2)) :
    m.1 = maxCount t := by
  apply le_antisymm
  · rcases List.mem_map.mp hm with ⟨p, hp, he⟩
    have h1 : m.1 = p.2 := by rw [← he]
    rw [h1]
    exact foldlMax_mem t 0 p hp
  · apply foldlMax_le
    · intro p hp
      rcases hall (p.2, p.1) (List.mem_map_of_mem _ hp) with h | ⟨e, _⟩
      · exact le_of_lt h
      · exact le_of_eq e
    · exact Nat.zero_le _

theorem bump_ne_nil (t : List (ℤ × ℕ)) (c : ℤ) : bump t c ≠ [] := by
  cases t with
  | nil => simp [bump]
  | cons p rest =>
    obtain ⟨k, n⟩ := p
    dsimp only [bump]
    split_ifs <;> simp

theorem tallyFold_nil_iff (a : Arena) (key : List ℕ) :
    ∀ (l : List (List ℚ × ℤ)) (acc : List (ℤ × ℕ)),
      l.foldl (fun acc p => if matchesCell a key p.1 then bump acc p.2 else acc) acc = [] ↔
        acc = [] ∧ ∀ p ∈ l, matchesCell a key p.1 = false
  | [], acc => by simp
  | p₀ :: rest, acc => by
    rw [List.foldl_cons]
    cases hb : matchesCell a key p₀.1 with
    | true =>
      rw [if_pos rfl, tallyFold_nil_iff a key rest (bump acc p₀.2)]
      constructor
      · rintro ⟨hbn, _⟩
        exact absurd hbn (bump_ne_nil acc p₀.2)
      · rintro ⟨_, hall⟩
        have hf := hall p₀ (List.mem_cons_self p₀ rest)
        rw [hb] at hf
        exact Bool.noConfusion hf
    | false =>
      rw [if_neg (by decide), tallyFold_nil_iff a key rest acc]
      constructor
      · rintro ⟨h1, h2⟩
        refine ⟨h1, fun p hp => ?_⟩
        rcases List.mem_cons.mp hp with he | he
        · rw [he]; exact hb
        · exact h2 p he
      · rintro ⟨h1, h2⟩
        exact ⟨h1, fun p hp => h2 p (List.mem_cons_of_mem p₀ hp)⟩

theorem tally_ne_nil_iff (a : Arena) (key : List ℕ) (data : List (List ℚ))
    (tgts : List ℤ) :
    tallyCell a key data tgts ≠ [] ↔
      ∃ p ∈ data.zip tgts, matchesCell a key p.1 = true := by
  unfold tallyCell
  rw [ne_eq, tallyFold_nil_iff a key (data.zip tgts) []]
  constructor
  · intro hne
    by_contra hc
    push_neg at hc
    refine hne ⟨rfl, fun p hp => ?_⟩
    cases hbp : matchesCell a key p.1 with
    | false => rfl
    | true => exact absurd hbp (hc p hp)
  · rintro ⟨p, hp, hm⟩ ⟨_, hall⟩
    have hf := hall p hp
    rw [hm] at hf
    exact Bool.noConfusion hf

theorem indFold_mem (a : Arena) (data : List (List ℚ)) (tgts : List ℤ) (minObs : ℕ) :
    ∀ (grid : List (List ℕ)) (acc : List Rule) (r : Rule),
      r ∈ grid.foldl (indStep a data tgts minObs) acc ↔
        r ∈ acc ∨ (pickRule a r.key data tgts minObs = some r.cls ∧ r.key ∈ grid)
  | [], acc, r => by simp
  | key₀ :: rest, acc, r => by
    rw [List.foldl_cons]
    cases hpk : pickRule a key₀ data tgts minObs with
    | none =>
      have hstep : indStep a data tgts minObs acc key₀ = acc := by
        simp only [indStep, hpk]
      rw [hstep, indFold_mem a data tgts minObs rest acc r]
      constructor
      · rintro (h | ⟨hp, hk⟩)
        · exact Or.inl h
        · exact Or.inr ⟨hp, List.mem_cons_of_mem key₀ hk⟩
      · rintro (h | ⟨hp, hk⟩)
        · exact Or.inl h
        · rcases List.mem_cons.mp hk with he | he
          · rw [he] at hp
            rw [hpk] at hp
            exact Option.noConfusion hp
          · exact Or.inr ⟨hp, he⟩
    | some c =>
      have hstep : indStep a data tgts minObs acc key₀ = acc ++ [Rule.mk key₀ c] := by
        simp only [indStep, hpk]
      rw [hstep, indFold_mem a data tgts minObs rest _ r]
      constructor
      · rintro (h | ⟨hp, hk⟩)
        · rcases List.mem_append.mp h with h' | h'
          · exact Or.inl h'
          · have he : r = Rule.mk key₀ c := by simpa using h'
            refine Or.inr ⟨?_, ?_⟩
            · rw [he]; exact hpk
            · rw [he]; exact List.mem_cons_self key₀ rest
        · exact Or.inr ⟨hp, List.mem_cons_of_mem key₀ hk⟩
      · rintro (h | ⟨hp, hk⟩)
        · exact Or.inl (List.mem_append_left _ h)
        · rcases List.mem_cons.mp hk with he | he
          · rw [he] at hp
            rw [hpk] at hp
            have hcls : c = r.cls := Option.some.inj hp
            refine Or.inl (List.mem_append_right _ ?_)
            have hr : r = Rule.mk key₀ c := by
              cases r with
              | mk k cl =>
                simp only at he hcls
                rw [he, hcls]
            rw [hr]
            exact List.mem_cons_self _ _
          · exact Or.inr ⟨hp, he⟩

theorem pickRule_some_iff (a : Arena) (key : List ℕ) (data : List (List ℚ))
    (tgts : List ℤ) (minObs : ℕ) :
    (∃ cls, pickRule a key data tgts minObs = some cls) ↔
      (tallyCell a key data tgts ≠ [] ∧
        minObs ≤ maxCount (tallyCell a key data tgts)) := by
  constructor
  · rintro ⟨cls, hp⟩
    cases hpy : pyMax ((tallyCell a key data tgts).map (fun p => (p.2, p.1))) with
    | none =>
      simp only [pickRule, hpy] at hp
      exact Option.noConfusion hp
    | some p =>
      simp only [pickRule, hpy] at hp
      split_ifs at hp with hm
      · have hne : tallyCell a key data tgts ≠ [] := by
          intro he
          rw [he] at hpy
          simp [pyMax] at hpy
        refine ⟨hne, ?_⟩
        have hswne : (tallyCell a key data tgts).map (fun p => (p.2, p.1)) ≠ [] := by
          intro he
          exact hne (by rwa [List.map_eq_nil_iff] at he)
        obtain ⟨m, hpy2, hmem, hall⟩ := pyMax_spec _ hswne
        rw [hpy] at hpy2
        obtain rfl := Option.some.inj hpy2
        rw [← pyMax_swap_fst _ p hmem hall]
        exact hm
  · rintro ⟨hne, hcnt⟩
    have hswne : (tallyCell a key data tgts).map (fun p => (p.2, p.1)) ≠ [] := by
      intro he
      exact hne (by rwa [List.map_eq_nil_iff] at he)
    obtain ⟨m, hpy, hmem, hall⟩ := pyMax_spec _ hswne
    refine ⟨m.2, ?_⟩
    simp only [pickRule, hpy]
    rw [if_pos (by rw [pyMax_swap_fst _ m hmem hall]; exact hcnt)]

/-!
## Claim theorems: direct evaluations
-/

/-- C1.  At a two-rule, one-feature state with membership functions
`(0, 1, 2)` and `(4, 5, 6)`, the first function has the second as its nearest
right-hand neighbour at gap `3 ≠ 0`; the claimed merge would set the
neighbour's `low` to `1` and the first function's `high` to `5`.  The code
instead stores `neighbour = rule[feature]` (the function itself), so repair
collapses the first function to `(1, 1, 1)` and leaves the neighbour's `low`
at `4`: the claimed assignments never happen. -/
theorem repair_collapses_instead_of_merging :
    repair [Rule.mk [0] 0, Rule.mk [1] 1] 1 [MF.mk 0 1 2, MF.mk 4 5 6]
      = [MF.mk 1 1 1, MF.mk 4 5 6] ∧
    (getMF (repair [Rule.mk [0] 0, Rule.mk [1] 1] 1 [MF.mk 0 1 2, MF.mk 4 5 6]) 1).low
      ≠ (1 : ℚ) := by
  norm_num [repair, repairAux, repairPass, passAux, repairStep, findNeighbour,
    fnStep, ruleMF, getMF, mfD, List.range_succ, List.getD]

/-- C2 counterexample.  For the observed feature column `[0, 7]` the code's
seventh break point is `0 + 6 * (7 - 0) / 7 = 6`, not the maximum `7`, so the
break points do not span `[min, max]`; moreover no membership function of the
partition covers the observed value `7`, so coverage of the observed range
fails. -/
theorem partition_points_do_not_reach_max :
    colMin [[(0 : ℚ)], [7]] 0 = 0 ∧ colMax [[(0 : ℚ)], [7]] 0 = 7 ∧
    (points7 0 7).getD 6 0 = 6 ∧ ((6 : ℚ) ≠ 7) ∧
    ¬ ∃ f ∈ splits5 0 7, f.low ≤ 7 ∧ (7 : ℚ) ≤ f.high := by
  norm_num [colMin, colMax, points7, splits5, pts, List.range_succ, List.getD]

/-- C3 counterexample.  In a cell whose tally enumerates class `0` first and
class `1` second, both with count `2`, Python's
`max(zip(classes.values(), classes.keys()))` picks `(2, 1)`: the assigned
class is the numerically greater label `1`, not the first-enumerated `0`. -/
theorem label_tie_goes_to_larger_class :
    tallyCell [MF.mk 0 1 2] [0] [[1], [1], [1], [1]] [0, 0, 1, 1] = [(0, 2), (1, 2)] ∧
    pickRule [MF.mk 0 1 2] [0] [[1], [1], [1], [1]] [0, 0, 1, 1] 1 = some 1 := by
  norm_num [tallyCell, bump, matchesCell, pickRule, pyMax, pyStep, getMF, mfD,
    List.getD, List.range_succ, List.zip, List.zipWith, List.all]

/-- C9 counterexample.  A two-row matrix with zero features passes the
shuffle collaborator's length check and is not rejected: induction runs on
the single empty-antecedent grid cell, which every observation matches, and
training succeeds with the rule `([], 0)` instead of failing fast. -/
theorem zero_feature_train_succeeds :
    trainRun [[], []] [0, 0] 2 0 0 = Except.ok ([Rule.mk [] 0], []) := by
  rfl

/-- C9 amended.  When the row counts of the observation matrix and the label
vector differ, the shuffle collaborator rejects the input with a descriptive
error before any induction work happens. -/
theorem mismatched_lengths_fail_fast (data : List (List ℚ)) (tgts : List ℤ)
    (minObs nbIter : ℕ) (lr : ℚ) (h : data.length ≠ tgts.length) :
    trainRun data tgts minObs nbIter lr
      = Except.error "inconsistent numbers of samples" := by
  unfold trainRun shuffleCheck
  rw [if_neg h]

/-- Witness for `mismatched_lengths_fail_fast` at a one-row matrix with an
empty label vector. -/
theorem mismatched_lengths_fail_fast_witness :
    trainRun [[(1 : ℚ)]] [] 1 0 0
      = Except.error "inconsistent numbers of samples" :=
  mismatched_lengths_fail_fast [[(1 : ℚ)]] [] 1 0 0 (by decide)

/-- C7.  Training with `nb_iter = 0` performs no epoch: the resulting model
state (rule list and every membership-function vertex) is exactly the
post-repair state. -/
theorem train_zero_iters_eq_post_repair (data : List (List ℚ)) (tgts : List ℤ)
    (minObs : ℕ) (lr : ℚ) :
    train data tgts minObs 0 lr = postRepairState data tgts minObs := by
  simp [train, postRepairState, trainLoop]

/-- C4.  Evaluation scans the rules with `>=` against `max_act = 0`: when the
rule set is empty the prediction is the explicit `-1` sentinel, and otherwise
(as soon as some rule has nonnegative activation) the returned class is that
of a maximally activated rule which, moreover, strictly dominates every rule
enumerated after it — so among rules tied at the maximal activation the
last-enumerated one wins. -/
theorem eval_tiebreak_last_and_empty_sentinel (a : Arena) (rules : List Rule)
    (row : List ℚ) :
    (predict a [] row = -1) ∧
    ((∃ r ∈ rules, 0 ≤ activation a r.key row) →
      ∃ l₁ w l₂, rules = l₁ ++ w :: l₂ ∧ predict a rules row = w.cls ∧
        (∀ r ∈ rules, activation a r.key row ≤ activation a w.key row) ∧
        (∀ r ∈ l₂, activation a r.key row < activation a w.key row)) := by
  constructor
  · rfl
  · intro h
    obtain ⟨l₁, w, l₂, hdec, _, hall, hafter, hfold⟩ :=
      evalFold_found a row rules 0 (-1) h
    refine ⟨l₁, w, l₂, hdec, ?_, hall, hafter⟩
    unfold predict
    rw [hfold]

/-- Witness for `eval_tiebreak_last_and_empty_sentinel`: two rules tied at
activation `1`; the prediction is the class of the later rule. -/
theorem eval_tiebreak_last_and_empty_sentinel_witness :
    ∃ l₁ w l₂,
      [Rule.mk [0] 7, Rule.mk [1] 8] = l₁ ++ w :: l₂ ∧
      predict [MF.mk 0 1 2, MF.mk 0 1 2] [Rule.mk [0] 7, Rule.mk [1] 8] [1] = w.cls ∧
      (∀ r ∈ [Rule.mk [0] 7, Rule.mk [1] 8],
        activation [MF.mk 0 1 2, MF.mk 0 1 2] r.key [1]
          ≤ activation [MF.mk 0 1 2, MF.mk 0 1 2] w.key [1]) ∧
      (∀ r ∈ l₂, activation [MF.mk 0 1 2, MF.mk 0 1 2] r.key [1]
          < activation [MF.mk 0 1 2, MF.mk 0 1 2] w.key [1]) :=
  (eval_tiebreak_last_and_empty_sentinel [MF.mk 0 1 2, MF.mk 0 1 2]
      [Rule.mk [0] 7, Rule.mk [1] 8] [1]).2
    ⟨Rule.mk [0] 7, by
      norm_num [activation, fuzzyfy, getMF, mfD, List.getD, List.range_succ]⟩

/-- C5.  In the training scan (`max_rule = None`, `max_act = 0`, strict `>`):
no winner is found exactly when every rule's activation is at most `0`, in
which case the observation is skipped and no vertex moves; a found winner has
strictly positive activation, is maximal, and strictly dominates every rule
enumerated before it (first-seen maximal rule wins); and the activation score
is the unweighted mean of the per-feature fuzzified degrees. -/
theorem train_winner_strict_first_or_skip (a : Arena) (rules : List Rule)
    (row : List ℚ) (lr : ℚ) (tgt : ℤ) :
    ((findWinner a rules row).1 = none ↔ ∀ r ∈ rules, activation a r.key row ≤ 0) ∧
    ((findWinner a rules row).1 = none → trainStep lr rules a row tgt = a) ∧
    (∀ w, (findWinner a rules row).1 = some w →
      0 < activation a w.key row ∧
      (∀ r ∈ rules, activation a r.key row ≤ activation a w.key row) ∧
      ∃ l₁ l₂, rules = l₁ ++ w :: l₂ ∧
        ∀ r ∈ l₁, activation a r.key row < activation a w.key row) ∧
    (∀ key : List ℕ, activation a key row =
      ((List.range key.length).map
        (fun i => fuzzyfy (getMF a (key.getD i 0)) (row.getD i 0))).sum
        / (key.length : ℚ)) := by
  refine ⟨?_, ?_, ?_, fun key => activation_mean a key row⟩
  · constructor
    · intro hnone
      by_contra hc
      push_neg at hc
      obtain ⟨l₁, w, l₂, _, _, _, _, hfold⟩ := winFold_found a row rules none 0
        (by rcases hc with ⟨r, hr, hlt⟩; exact ⟨r, hr, hlt⟩)
      rw [findWinner, hfold] at hnone
      exact Option.noConfusion hnone
    · intro hall
      rw [findWinner, winFold_stay a row rules none 0 hall]
  · intro hnone
    rw [trainStep, hnone]
  · intro w hw
    by_cases hall : ∀ r ∈ rules, activation a r.key row ≤ 0
    · rw [findWinner, winFold_stay a row rules none 0 hall] at hw
      exact Option.noConfusion hw
    · push_neg at hall
      obtain ⟨l₁, w', l₂, hdec, hpos, hbefore, hmax, hfold⟩ :=
        winFold_found a row rules none 0
          (by rcases hall with ⟨r, hr, hlt⟩; exact ⟨r, hr, hlt⟩)
      rw [findWinner, hfold] at hw
      have hww : w' = w := Option.some.inj hw
      rw [hww] at hpos hbefore hmax hdec
      exact ⟨hpos, hmax, l₁, l₂, hdec, hbefore⟩

/-- Witness for `train_winner_strict_first_or_skip`: an observation outside
the only rule's support has activation `0`, so the winner scan returns `None`
and the training step leaves the arena unchanged. -/
theorem train_winner_strict_first_or_skip_witness :
    (findWinner [MF.mk 0 1 2] [Rule.mk [0] 5] [10]).1 = none ∧
    trainStep 1 [Rule.mk [0] 5] [MF.mk 0 1 2] [10] 0 = [MF.mk 0 1 2] := by
  have h := train_winner_strict_first_or_skip [MF.mk 0 1 2] [Rule.mk [0] 5] [10] 1 0
  have hz : (findWinner [MF.mk 0 1 2] [Rule.mk [0] 5] [10]).1 = none :=
    h.1.mpr (by norm_num [activation, fuzzyfy, getMF, mfD, List.getD, List.range_succ])
  exact ⟨hz, h.2.1 hz⟩

/-- C10.  When the rule set is non-empty and every degree `fuzzyfy` can
return is nonnegative, every rule's activation is at least the initial
`max_act = 0`, so the `>=` scan of `test` always overwrites the initial
`-1`: the prediction is the class of some rule of the rule set (even when
every activation is exactly zero), and it can be `-1` only if some rule
carries that very label. -/
theorem nonempty_nonneg_predict_hits_rule (a : Arena) (rules : List Rule)
    (row : List ℚ) (hne : rules ≠ [])
    (hdeg : ∀ i x, 0 ≤ fuzzyfy (getMF a i) x) :
    (∃ r ∈ rules, predict a rules row = r.cls) ∧
    ((∀ r ∈ rules, r.cls ≠ -1) → predict a rules row ≠ -1) := by
  have hex : ∃ r ∈ rules, 0 ≤ activation a r.key row := by
    obtain ⟨r₀, rest, hcons⟩ := List.exists_cons_of_ne_nil hne
    exact ⟨r₀, by rw [hcons]; exact List.mem_cons_self r₀ rest,
      activation_nonneg a r₀.key row hdeg⟩
  obtain ⟨l₁, w, l₂, hdec, _, _, _, hfold⟩ := evalFold_found a row rules 0 (-1) hex
  have hw : w ∈ rules := by
    rw [hdec]
    exact List.mem_append_right l₁ (List.mem_cons_self w l₂)
  have hp : predict a rules row = w.cls := by
    unfold predict
    rw [hfold]
  exact ⟨⟨w, hw, hp⟩, fun hcls => by rw [hp]; exact hcls w hw⟩

/-- Witness for `nonempty_nonneg_predict_hits_rule`: a single rule whose
activation at the observation is zero; the prediction is still that rule's
class, not the sentinel. -/
theorem nonempty_nonneg_predict_hits_rule_witness :
    ∃ r ∈ [Rule.mk [0] 3], predict [MF.mk 0 1 2] [Rule.mk [0] 3] [5] = r.cls :=
  (nonempty_nonneg_predict_hits_rule [MF.mk 0 1 2] [Rule.mk [0] 3] [5]
    (by decide)
    (by
      intro i x
      apply fuzzyfy_nonneg
      · match i with
        | 0 => norm_num [getMF, List.getD]
        | n + 1 => norm_num [getMF, List.getD, mfD]
      · match i with
        | 0 => norm_num [getMF, List.getD]
        | n + 1 => norm_num [getMF, List.getD, mfD])).1

/-- C8.  Repair is idempotent on the model state: the rule list is never
touched by `repair` (keys and classes are fixed by construction), and running
the vertex-rewriting pass twice yields exactly the arena of running it once.
Once a function has been collapsed onto its `mid` vertex, every later guard
that fires on it rewrites it to itself; a function left untouched keeps its
`high` vertex, and since no visit ever moves a `mid` vertex, every guard
re-evaluates exactly as before. -/
theorem repair_idempotent (rules : List Rule) (nbF : ℕ) (a : Arena) :
    repair rules nbF (repair rules nbF a) = repair rules nbF a := by
  unfold repair
  exact repairAux_noop rules (List.range nbF) (repairAux rules a (List.range nbF))
    (fun j hj r hr => repairAux_visitOK_all rules (List.range nbF) a j hj r hr)

/-- C3 amended.  For every non-empty grid cell, the label chosen by
`max(zip(classes.values(), classes.keys()))` is the lexicographic maximum of
the `(count, class)` pairs: a class with strictly greatest count wins, and
when several classes tie at the maximal count the numerically greatest class
label wins — not the first-enumerated one. -/
theorem cell_label_lex_max (a : Arena) (key : List ℕ) (data : List (List ℚ))
    (tgts : List ℤ) (h : tallyCell a key data tgts ≠ []) :
    ∃ n k, pyMax ((tallyCell a key data tgts).map (fun p => (p.2, p.1))) = some (n, k) ∧
      (k, n) ∈ tallyCell a key data tgts ∧
      n = maxCount (tallyCell a key data tgts) ∧
      ∀ p ∈ tallyCell a key data tgts, p.2 < n ∨ (p.2 = n ∧ p.1 ≤ k) := by
  have hswne : (tallyCell a key data tgts).map (fun p => (p.2, p.1)) ≠ [] := by
    intro he
    exact h (by rwa [List.map_eq_nil_iff] at he)
  obtain ⟨m, hpy, hmem, hall⟩ := pyMax_spec _ hswne
  refine ⟨m.1, m.2, hpy, ?_, pyMax_swap_fst _ m hmem hall, ?_⟩
  · rcases List.mem_map.mp hmem with ⟨p, hp, he⟩
    have hpe : (m.2, m.1) = p := by rw [← he]
    rw [hpe]
    exact hp
  · intro p hp
    exact hall (p.2, p.1) (List.mem_map_of_mem _ hp)

/-- Witness for `cell_label_lex_max` at the four-observation cell whose
tally is `[(0, 2), (1, 2)]`. -/
theorem cell_label_lex_max_witness :
    ∃ n k,
      pyMax ((tallyCell [MF.mk 0 1 2] [0] [[1], [1], [1], [1]] [0, 0, 1, 1]).map
        (fun p => (p.2, p.1))) = some (n, k) ∧
      (k, n) ∈ tallyCell [MF.mk 0 1 2] [0] [[1], [1], [1], [1]] [0, 0, 1, 1] ∧
      n = maxCount (tallyCell [MF.mk 0 1 2] [0] [[1], [1], [1], [1]] [0, 0, 1, 1]) ∧
      ∀ p ∈ tallyCell [MF.mk 0 1 2] [0] [[1], [1], [1], [1]] [0, 0, 1, 1],
        p.2 < n ∨ (p.2 = n ∧ p.1 ≤ k) :=
  cell_label_lex_max [MF.mk 0 1 2] [0] [[1], [1], [1], [1]] [0, 0, 1, 1]
    (by
      norm_num [tallyCell, bump, matchesCell, getMF, mfD, List.getD,
        List.range_succ, List.zip, List.zipWith, List.all]
      decide)

/-- C6.  A grid cell of the candidate grid becomes a rule of the initial
RuleSet exactly when some training observation matches it (for every feature
the value lies in the closed interval `[low.x, high.x]` of the cell's
membership function, which is what `matchesCell` computes) and its dominant
class count — the greatest per-class count of the cell's tally — reaches
`min_observations_per_rule`. -/
theorem rule_survives_iff_support (a : Arena) (grid : List (List ℕ))
    (data : List (List ℚ)) (tgts : List ℤ) (minObs : ℕ) (key : List ℕ)
    (hkey : key ∈ grid) :
    (∃ cls, Rule.mk key cls ∈ induceRules a grid data tgts minObs) ↔
      ((∃ p ∈ data.zip tgts, matchesCell a key p.1 = true) ∧
        minObs ≤ maxCount (tallyCell a key data tgts)) := by
  have hmem : ∀ cls, Rule.mk key cls ∈ induceRules a grid data tgts minObs ↔
      pickRule a key data tgts minObs = some cls := by
    intro cls
    unfold induceRules
    rw [indFold_mem a data tgts minObs grid [] (Rule.mk key cls)]
    constructor
    · rintro (hin | ⟨hp, _⟩)
      · exact absurd hin (List.not_mem_nil _)
      · exact hp
    · intro hp
      exact Or.inr ⟨hp, hkey⟩
  constructor
  · rintro ⟨cls, hin⟩
    have hsome := (pickRule_some_iff a key data tgts minObs).mp ⟨cls, (hmem cls).mp hin⟩
    exact ⟨(tally_ne_nil_iff a key data tgts).mp hsome.1, hsome.2⟩
  · rintro ⟨hex, hcnt⟩
    obtain ⟨cls, hp⟩ := (pickRule_some_iff a key data tgts minObs).mpr
      ⟨(tally_ne_nil_iff a key data tgts).mpr hex, hcnt⟩
    exact ⟨cls, (hmem cls).mpr hp⟩

/-- Witness for `rule_survives_iff_support`: a one-cell grid with a single
matching observation and threshold `1` keeps the cell as a rule. -/
theorem rule_survives_iff_support_witness :
    ∃ cls, Rule.mk [0] cls ∈ induceRules [MF.mk 0 1 2] [[0]] [[1]] [0] 1 :=
  (rule_survives_iff_support [MF.mk 0 1 2] [[0]] [[1]] [0] 1 [0]
      (by decide)).mpr
    ⟨by norm_num [matchesCell, getMF, mfD, List.getD, List.range_succ,
        List.zip, List.zipWith, List.all],
      by norm_num [maxCount, tallyCell, bump, matchesCell, getMF, mfD,
        List.getD, List.range_succ, List.zip, List.zipWith, List.all]⟩

theorem pts_zero (mn mx : ℚ) : pts mn mx 0 = mn := by
  unfold pts
  norm_num

theorem pts_mono (mn mx : ℚ) (h : mn ≤ mx) {i j : ℕ} (hij : i ≤ j) :
    pts mn mx i ≤ pts mn mx j := by
  unfold pts
  have hc : (i : ℚ) ≤ (j : ℚ) := Nat.cast_le.mpr hij
  have hd : (0 : ℚ) ≤ mx - mn := by linarith
  have hm : (i : ℚ) * (mx - mn) ≤ (j : ℚ) * (mx - mn) :=
    mul_le_mul_of_nonneg_right hc hd
  have hdiv : (i : ℚ) * (mx - mn) / 7 ≤ (j : ℚ) * (mx - mn) / 7 := by gcongr
  linarith

/-- C2 amended.  Partition construction places its 7 break points at
`min + n·(max−min)/7` for `n = 0..6` — an equal spacing of step
`(max−min)/7` that stops at `min + 6(max−min)/7`, not at `max` — and builds
the 5 triangular functions `(points[n], points[n+1], points[n+2])`; their
supports cover exactly `[min, min + 6(max−min)/7]`, leaving the top seventh
of the observed range uncovered whenever `min < max`. -/
theorem partition_points_and_coverage (mn mx : ℚ) (h : mn ≤ mx) :
    (points7 mn mx).length = 7 ∧
    (∀ n, n < 7 → (points7 mn mx).getD n 0 = mn + n * (mx - mn) / 7) ∧
    (splits5 mn mx).length = 5 ∧
    (∀ n, n < 5 → (splits5 mn mx).getD n mfD =
      MF.mk (pts mn mx n) (pts mn mx (n + 1)) (pts mn mx (n + 2))) ∧
    (∀ x : ℚ, (∃ f ∈ splits5 mn mx, f.low ≤ x ∧ x ≤ f.high) ↔
      (mn ≤ x ∧ x ≤ mn + 6 * (mx - mn) / 7)) := by
  have h6 : pts mn mx 6 = mn + 6 * (mx - mn) / 7 := by
    unfold pts
    norm_num
  refine ⟨by simp [points7], ?_, by simp [splits5], ?_, ?_⟩
  · intro n hn
    unfold points7
    rw [List.getD_eq_getElem?_getD, List.getElem?_map, List.getElem?_range hn]
    rfl
  · intro n hn
    unfold splits5
    rw [List.getD_eq_getElem?_getD, List.getElem?_map, List.getElem?_range hn]
    rfl
  · intro x
    constructor
    · rintro ⟨f, hf, h1, h2⟩
      rcases List.mem_map.mp hf with ⟨n, hn, rfl⟩
      have hn5 : n < 5 := List.mem_range.mp hn
      constructor
      · calc mn = pts mn mx 0 := (pts_zero mn mx).symm
          _ ≤ pts mn mx n := pts_mono mn mx h (Nat.zero_le n)
          _ ≤ x := h1
      · calc x ≤ pts mn mx (n + 2) := h2
          _ ≤ pts mn mx 6 := pts_mono mn mx h (by omega)
          _ = mn + 6 * (mx - mn) / 7 := h6
    · rintro ⟨hx1, hx2⟩
      rcases le_or_lt x (pts mn mx 2) with hc2 | hc2
      · refine ⟨MF.mk (pts mn mx 0) (pts mn mx 1) (pts mn mx 2),
          List.mem_map_of_mem _ (List.mem_range.mpr (by norm_num)), ?_, hc2⟩
        rw [pts_zero]
        exact hx1
      · rcases le_or_lt x (pts mn mx 4) with hc4 | hc4
        · exact ⟨MF.mk (pts mn mx 2) (pts mn mx 3) (pts mn mx 4),
            List.mem_map_of_mem _ (List.mem_range.mpr (by norm_num)),
            le_of_lt hc2, hc4⟩
        · refine ⟨MF.mk (pts mn mx 4) (pts mn mx 5) (pts mn mx 6),
            List.mem_map_of_mem _ (List.mem_range.mpr (by norm_num)),
            le_of_lt hc4, ?_⟩
          rw [h6]
          exact hx2

/-- Witness for `partition_points_and_coverage` on the observed range
`[0, 7]`. -/
theorem partition_points_and_coverage_witness :
    (points7 0 7).length = 7 ∧
    (∀ n, n < 7 → (points7 0 7).getD n 0 = 0 + n * (7 - 0) / 7) ∧
    (splits5 0 7).length = 5 ∧
    (∀ n, n < 5 → (splits5 0 7).getD n mfD =
      MF.mk (pts 0 7 n) (pts 0 7 (n + 1)) (pts 0 7 (n + 2))) ∧
    (∀ x : ℚ, (∃ f ∈ splits5 0 7, f.low ≤ x ∧ x ≤ f.high) ↔
      (0 ≤ x ∧ x ≤ 0 + 6 * (7 - 0) / 7)) :=
  partition_points_and_coverage 0 7 (by norm_num)

end NFS
